import Mathlib

/-
  Verification of the EventReport client-side analytics pipeline.

  Shallow embedding of:
  - the events API pagination loop (eventsApi.getAllForAnalytics) and the
    analytics page loader (loadEvents), from the web client api module;
  - the analytics aggregators processEventsByMonth, processEventsByAlertCode,
    processEventsByDayOfWeek, processEventsByHour, processTopTags,
    processEventsTrend, the time-range filter (displayEvents) and
    calculateStatistics, from the analytics page module.

  Modelling conventions:
  - reported_at is a string parsed with new Date(...) in the source; the
    embedding carries the parsed view directly: the fields the analytics code
    reads from the Date object (getMonth, getDay, getHours, getTime and the
    ISO date key used by the trend aggregator).  A parseable reported_at
    yields getMonth in 0..11, getDay in 0..6, getHours in 0..23; theorems
    about parseable inputs take those bounds as hypotheses.
  - JS number arithmetic is modelled over Nat / Int / Rat; toFixed(1) is
    modelled as rounding to one decimal (the numeric value the produced
    string denotes).
  - A JS Record used only through lookups at a fixed key set is modelled as a
    total function with default 0; a Record whose Object.entries insertion
    order is observable (tag counts, date groups) is modelled as an
    insertion-ordered association list.
  - Array.prototype.sort with a comparator is a stable comparator sort; it is
    modelled by a stable insertion sort on the same comparator.
-/

namespace EventReport

/-- Alert severity enumeration, from the Event interface of the api module. -/
inductive AlertCode
  | GREEN
  | YELLOW
  | ORANGE
  | RED
deriving DecidableEq

/-- String name of an alert code, as used for Record keys in the source. -/
def AlertCode.name : AlertCode → String
  | .GREEN => "GREEN"
  | .YELLOW => "YELLOW"
  | .ORANGE => "ORANGE"
  | .RED => "RED"

/-- The four alert codes in the fixed insertion order of the alertCounts
record literal in processEventsByAlertCode. -/
def allAlertCodes : List AlertCode := [.GREEN, .YELLOW, .ORANGE, .RED]

/-- Parsed view of an event timestamp: the fields the analytics code reads
from new Date(event.reported_at).  month is getMonth (0-based), weekday is
getDay (0 = Sunday), hour is getHours, time is getTime in milliseconds,
dateKey is toISOString().split(the letter T)[0], a YYYY-MM-DD string. -/
structure JSDate where
  month : Nat
  weekday : Nat
  hour : Nat
  time : Int
  dateKey : String
deriving DecidableEq

/-- An incident event, from the Event interface of the api module.  The
location and optional image reference are never read by the analytics code
and are omitted; reported_at is carried in parsed form (see JSDate). -/
structure Event where
  id : String
  alert_code : AlertCode
  description : String
  tags : List String
  reporter_id : String
  date : JSDate
deriving DecidableEq

/-- Hex colors per alert code, from ALERT_COLORS in the api module. -/
def ALERT_COLORS : AlertCode → String
  | .GREEN => "#22c55e"
  | .YELLOW => "#eab308"
  | .ORANGE => "#f97316"
  | .RED => "#ef4444"

/-- Numeric value denoted by x.toFixed(1): x rounded to one decimal place. -/
def toFixed1 (q : ℚ) : ℚ := (round (q * 10) : ℚ) / 10

/-- Counting pattern shared by the first four aggregators: fold over the
events, incrementing a counter at the key of each event.  Models a JS
Record (or array) used only through fixed-key lookups, as a total function
with default 0. -/
def bucketCounts {κ : Type} [DecidableEq κ] (key : Event → κ) (events : List Event) : κ → Nat :=
  events.foldl (fun counts e => Function.update counts (key e) (counts (key e) + 1)) (fun _ => 0)

/-- Month labels, from the monthNames array in processEventsByMonth. -/
def monthNames : List String :=
  ["Jan", "Feb", "Mar", "Apr", "May", "Jun", "Jul", "Aug", "Sep", "Oct", "Nov", "Dec"]

/-- Output row of processEventsByMonth. -/
structure MonthCount where
  month : String
  count : Nat
deriving DecidableEq

/-- processEventsByMonth: count events into the twelve named months (the
record key is monthNames[getMonth()]; for an out-of-range index the JS
lookup yields undefined and the write lands on the key "undefined", which
the returned rows never read), then emit one row per month name in order. -/
def processEventsByMonth (events : List Event) : List MonthCount :=
  let monthCounts := bucketCounts (fun e => monthNames.getD e.date.month "undefined") events
  monthNames.map (fun m => { month := m, count := monthCounts m })

/-- Output slice of processEventsByAlertCode. -/
structure AlertSlice where
  name : String
  value : Nat
  percentage : ℚ
  fill : String
deriving DecidableEq

/-- processEventsByAlertCode: count events into the four severities and
compute each percentage of the total; the divisor is events.length || 1,
which is 1 exactly when the set is empty. -/
def processEventsByAlertCode (events : List Event) : List AlertSlice :=
  let alertCounts := bucketCounts (fun e => e.alert_code) events
  let total : Nat := if events.length = 0 then 1 else events.length
  allAlertCodes.map (fun c =>
    { name := c.name
      value := alertCounts c
      percentage := toFixed1 ((alertCounts c : ℚ) / (total : ℚ) * 100)
      fill := ALERT_COLORS c })

/-- Weekday labels, Sunday-first, from the dayNames array. -/
def dayNames : List String :=
  ["Sunday", "Monday", "Tuesday", "Wednesday", "Thursday", "Friday", "Saturday"]

/-- Output row of processEventsByDayOfWeek. -/
structure DayCount where
  day : String
  count : Nat
deriving DecidableEq

/-- processEventsByDayOfWeek: count events into a 7-slot array indexed by
getDay(), then emit one row per weekday index 0..6 (the source maps over
dayNames with the index). -/
def processEventsByDayOfWeek (events : List Event) : List DayCount :=
  let dayCounts := bucketCounts (fun e => e.date.weekday) events
  (List.range 7).map (fun idx => { day := dayNames.getD idx "", count := dayCounts idx })

/-- Two-digit zero-padded decimal rendering of a nat, modelling
toString().padStart(2, the digit zero) for hour values. -/
def pad2 (n : Nat) : String := if n < 10 then "0" ++ toString n else toString n

/-- Output row of processEventsByHour. -/
structure HourCount where
  hour : String
  count : Nat
deriving DecidableEq

/-- processEventsByHour: count events into a 24-slot array indexed by
getHours(), then emit one row per hour 0..23 labelled HH:00. -/
def processEventsByHour (events : List Event) : List HourCount :=
  let hourCounts := bucketCounts (fun e => e.date.hour) events
  (List.range 24).map (fun h => { hour := pad2 h ++ ":00", count := hourCounts h })

/- Pointwise characterisation of bucketCounts. -/

/-- Value of the counting fold at a key: the initial value plus the number of
events whose key matches. -/
theorem bucketCounts_foldl_apply {κ : Type} [DecidableEq κ] (key : Event → κ) :
    ∀ (events : List Event) (f : κ → Nat) (k : κ),
      (events.foldl (fun counts e => Function.update counts (key e) (counts (key e) + 1)) f) k
        = f k + events.countP (fun e => decide (key e = k)) := by
  intro events
  induction events with
  | nil => intro f k; simp
  | cons e es ih =>
    intro f k
    simp only [List.foldl_cons, ih, List.countP_cons]
    by_cases h : key e = k
    · subst h
      simp [Function.update_apply]
      omega
    · rw [Function.update_apply]
      simp [h, Ne.symm h]

/-- bucketCounts at a key counts the events with that key. -/
theorem bucketCounts_apply {κ : Type} [DecidableEq κ] (key : Event → κ)
    (events : List Event) (k : κ) :
    bucketCounts key events k = events.countP (fun e => decide (key e = k)) := by
  unfold bucketCounts
  rw [bucketCounts_foldl_apply]
  simp

/- Sum of per-key counts over a duplicate-free key list. -/

theorem sum_map_add_nat {κ : Type} (l : List κ) (f g : κ → Nat) :
    (l.map (fun x => f x + g x)).sum = (l.map f).sum + (l.map g).sum := by
  induction l with
  | nil => simp
  | cons a as ih => simp [ih]; omega

theorem sum_map_indicator_zero {κ : Type} [DecidableEq κ] (names : List κ) (a : κ)
    (ha : a ∉ names) :
    (names.map (fun k => if a = k then (1 : Nat) else 0)).sum = 0 := by
  induction names with
  | nil => simp
  | cons n ns ih =>
    simp only [List.mem_cons, not_or] at ha
    simp [ha.1, ih ha.2]

theorem sum_map_indicator_one {κ : Type} [DecidableEq κ] (names : List κ) (a : κ)
    (hnd : names.Nodup) (ha : a ∈ names) :
    (names.map (fun k => if a = k then (1 : Nat) else 0)).sum = 1 := by
  induction names with
  | nil => simp at ha
  | cons n ns ih =>
    rcases List.mem_cons.mp ha with h | h
    · subst h
      have : a ∉ ns := (List.nodup_cons.mp hnd).1
      simp [sum_map_indicator_zero ns a this]
    · have hne : a ≠ n := by
        rintro rfl
        exact (List.nodup_cons.mp hnd).1 h
      simp [hne, ih (List.nodup_cons.mp hnd).2 h]

/-- Summing, over a duplicate-free key list covering every event, the number
of events at each key gives back the number of events. -/
theorem sum_names_countP {κ : Type} [DecidableEq κ] (names : List κ) (hnd : names.Nodup)
    (key : Event → κ) :
    ∀ (events : List Event), (∀ e ∈ events, key e ∈ names) →
      (names.map (fun k => events.countP (fun e => decide (key e = k)))).sum = events.length := by
  intro events
  induction events with
  | nil => intro _; simp
  | cons e es ih =>
    intro h
    have hmem : key e ∈ names := h e (List.mem_cons_self e es)
    have hes : ∀ x ∈ es, key x ∈ names := fun x hx => h x (List.mem_cons_of_mem e hx)
    simp only [List.countP_cons]
    have hsplit :
        (names.map (fun k => es.countP (fun x => decide (key x = k))
            + if decide (key e = k) = true then 1 else 0)).sum
          = (names.map (fun k => es.countP (fun x => decide (key x = k)))).sum
            + (names.map (fun k => if key e = k then (1 : Nat) else 0)).sum := by
      rw [← sum_map_add_nat]
      congr 1
      apply List.map_congr_left
      intro k _
      by_cases hk : key e = k <;> simp [hk]
    rw [hsplit, ih hes, sum_map_indicator_one names (key e) hnd hmem]
    simp [List.length_cons]

/- Per-aggregator bucket sums. -/

theorem monthKey_mem (e : Event) (h : e.date.month < 12) :
    monthNames.getD e.date.month "undefined" ∈ monthNames := by
  have hlen : e.date.month < monthNames.length := by
    simpa [monthNames] using h
  rw [List.getD_eq_getElem _ _ hlen]
  exact List.getElem_mem hlen

theorem alertCode_mem (c : AlertCode) : c ∈ allAlertCodes := by
  cases c <;> simp [allAlertCodes]

theorem processEventsByMonth_sum (events : List Event)
    (hm : ∀ e ∈ events, e.date.month < 12) :
    ((processEventsByMonth events).map (fun r => r.count)).sum = events.length := by
  have hnd : monthNames.Nodup := by decide
  unfold processEventsByMonth
  simp only [List.map_map, Function.comp_def, bucketCounts_apply]
  exact sum_names_countP monthNames hnd _ events (fun e he => monthKey_mem e (hm e he))

theorem processEventsByAlertCode_sum (events : List Event) :
    ((processEventsByAlertCode events).map (fun r => r.value)).sum = events.length := by
  have hnd : allAlertCodes.Nodup := by decide
  unfold processEventsByAlertCode
  simp only [List.map_map, Function.comp_def, bucketCounts_apply]
  exact sum_names_countP allAlertCodes hnd _ events (fun e _ => alertCode_mem e.alert_code)

theorem processEventsByDayOfWeek_sum (events : List Event)
    (hw : ∀ e ∈ events, e.date.weekday < 7) :
    ((processEventsByDayOfWeek events).map (fun r => r.count)).sum = events.length := by
  have hnd : (List.range 7).Nodup := List.nodup_range 7
  unfold processEventsByDayOfWeek
  simp only [List.map_map, Function.comp_def, bucketCounts_apply]
  exact sum_names_countP (List.range 7) hnd _ events
    (fun e he => List.mem_range.mpr (hw e he))

theorem processEventsByHour_sum (events : List Event)
    (hh : ∀ e ∈ events, e.date.hour < 24) :
    ((processEventsByHour events).map (fun r => r.count)).sum = events.length := by
  have hnd : (List.range 24).Nodup := List.nodup_range 24
  unfold processEventsByHour
  simp only [List.map_map, Function.comp_def, bucketCounts_apply]
  exact sum_names_countP (List.range 24) hnd _ events
    (fun e he => List.mem_range.mpr (hh e he))

/-- C2: for every event set whose reported_at values parse (month index below
12, weekday below 7, hour below 24; the alert code is one of the four by
construction of the Event type), the bucket counts of each of the four
fixed-dimension aggregators sum to the number of events. -/
theorem c2_bucket_sums (events : List Event)
    (hm : ∀ e ∈ events, e.date.month < 12)
    (hw : ∀ e ∈ events, e.date.weekday < 7)
    (hh : ∀ e ∈ events, e.date.hour < 24) :
    ((processEventsByMonth events).map (fun r => r.count)).sum = events.length ∧
    ((processEventsByAlertCode events).map (fun r => r.value)).sum = events.length ∧
    ((processEventsByDayOfWeek events).map (fun r => r.count)).sum = events.length ∧
    ((processEventsByHour events).map (fun r => r.count)).sum = events.length :=
  ⟨processEventsByMonth_sum events hm, processEventsByAlertCode_sum events,
   processEventsByDayOfWeek_sum events hw, processEventsByHour_sum events hh⟩

/-- Sample event: 2024-03-15T10:00Z, RED, one tag. -/
def demoEvent1 : Event :=
  { id := "e1", alert_code := .RED, description := "", tags := ["fire"],
    reporter_id := "u1",
    date := { month := 2, weekday := 5, hour := 10, time := 1710496800000,
              dateKey := "2024-03-15" } }

/-- Sample event: 2024-03-15T14:00Z, GREEN, two tags. -/
def demoEvent2 : Event :=
  { id := "e2", alert_code := .GREEN, description := "", tags := ["fire", "smoke"],
    reporter_id := "u2",
    date := { month := 2, weekday := 5, hour := 14, time := 1710511200000,
              dateKey := "2024-03-15" } }

/-- Witness for C2 on the two-event sample set from the spec scenario. -/
theorem c2_bucket_sums_witness :
    ((processEventsByMonth [demoEvent1, demoEvent2]).map (fun r => r.count)).sum = 2 ∧
    ((processEventsByAlertCode [demoEvent1, demoEvent2]).map (fun r => r.value)).sum = 2 ∧
    ((processEventsByDayOfWeek [demoEvent1, demoEvent2]).map (fun r => r.count)).sum = 2 ∧
    ((processEventsByHour [demoEvent1, demoEvent2]).map (fun r => r.count)).sum = 2 := by
  have h := c2_bucket_sums [demoEvent1, demoEvent2]
    (by decide) (by decide) (by decide)
  simpa using h

/- C3: fixed label sets. -/

theorem AlertCode.name_injective {c₁ c₂ : AlertCode} (h : c₁.name = c₂.name) : c₁ = c₂ := by
  cases c₁ <;> cases c₂ <;> first | rfl | (exfalso; revert h; decide)

/-- C3: regardless of the event set (including the empty one), each
fixed-dimension aggregator emits exactly its enumerated label list in its
fixed order, and a bucket into which no event falls has count 0. -/
theorem c3_fixed_labels (events : List Event) :
    (processEventsByMonth events).map (fun r => r.month)
      = ["Jan", "Feb", "Mar", "Apr", "May", "Jun",
         "Jul", "Aug", "Sep", "Oct", "Nov", "Dec"] ∧
    (processEventsByAlertCode events).map (fun r => r.name)
      = ["GREEN", "YELLOW", "ORANGE", "RED"] ∧
    (processEventsByDayOfWeek events).map (fun r => r.day)
      = ["Sunday", "Monday", "Tuesday", "Wednesday", "Thursday", "Friday", "Saturday"] ∧
    (processEventsByHour events).map (fun r => r.hour)
      = ["00:00", "01:00", "02:00", "03:00", "04:00", "05:00", "06:00", "07:00",
         "08:00", "09:00", "10:00", "11:00", "12:00", "13:00", "14:00", "15:00",
         "16:00", "17:00", "18:00", "19:00", "20:00", "21:00", "22:00", "23:00"] ∧
    (∀ r ∈ processEventsByMonth events,
      (∀ e ∈ events, monthNames.getD e.date.month "undefined" ≠ r.month) → r.count = 0) ∧
    (∀ r ∈ processEventsByAlertCode events,
      (∀ e ∈ events, e.alert_code.name ≠ r.name) → r.value = 0) ∧
    (∀ r ∈ processEventsByDayOfWeek events,
      (∀ e ∈ events, dayNames.getD e.date.weekday "" ≠ r.day) → r.count = 0) ∧
    (∀ r ∈ processEventsByHour events,
      (∀ e ∈ events, pad2 e.date.hour ++ ":00" ≠ r.hour) → r.count = 0) := by
  refine ⟨?_, ?_, ?_, ?_, ?_, ?_, ?_, ?_⟩
  · unfold processEventsByMonth
    simp [List.map_map, Function.comp_def, monthNames]
  · unfold processEventsByAlertCode
    simp [List.map_map, Function.comp_def, allAlertCodes, AlertCode.name]
  · unfold processEventsByDayOfWeek
    simp only [List.map_map, Function.comp_def]
    decide
  · unfold processEventsByHour
    simp only [List.map_map, Function.comp_def]
    decide
  · intro r hr hno
    unfold processEventsByMonth at hr
    simp only [List.mem_map] at hr
    obtain ⟨m, hm, rfl⟩ := hr
    simp only [bucketCounts_apply]
    rw [List.countP_eq_zero]
    intro e he
    simp only [decide_eq_true_eq]
    exact fun heq => hno e he heq
  · intro r hr hno
    unfold processEventsByAlertCode at hr
    simp only [List.mem_map] at hr
    obtain ⟨c, hc, rfl⟩ := hr
    simp only [bucketCounts_apply]
    rw [List.countP_eq_zero]
    intro e he
    simp only [decide_eq_true_eq]
    exact fun heq => hno e he (by rw [heq])
  · intro r hr hno
    unfold processEventsByDayOfWeek at hr
    simp only [List.mem_map] at hr
    obtain ⟨i, hi, rfl⟩ := hr
    simp only [bucketCounts_apply]
    rw [List.countP_eq_zero]
    intro e he
    simp only [decide_eq_true_eq]
    exact fun heq => hno e he (by rw [heq])
  · intro r hr hno
    unfold processEventsByHour at hr
    simp only [List.mem_map] at hr
    obtain ⟨h, hh, rfl⟩ := hr
    simp only [bucketCounts_apply]
    rw [List.countP_eq_zero]
    intro e he
    simp only [decide_eq_true_eq]
    exact fun heq => hno e he (by rw [heq])

/-- Witness for C3 on the empty event set: all twelve month labels appear and
the Jan bucket, into which no event falls, has count 0. -/
theorem c3_fixed_labels_witness :
    (processEventsByMonth ([] : List Event)).map (fun r => r.month)
      = ["Jan", "Feb", "Mar", "Apr", "May", "Jun",
         "Jul", "Aug", "Sep", "Oct", "Nov", "Dec"] ∧
    ({ month := "Jan", count := 0 } : MonthCount).count = 0 := by
  have h := c3_fixed_labels ([] : List Event)
  refine ⟨h.1, ?_⟩
  exact h.2.2.2.2.1 { month := "Jan", count := 0 } (by decide)
    (by intro e he; exact absurd he (List.not_mem_nil e))

/- C4: alert-code percentages. -/

/-- Rounding to one decimal moves a rational by at most 1/20. -/
theorem abs_toFixed1_sub (x : ℚ) : |toFixed1 x - x| ≤ 1 / 20 := by
  unfold toFixed1
  have h := abs_sub_round (x * 10)
  rw [abs_sub_comm] at h
  have h10 : ((round (x * 10) : ℚ) / 10 - x) = ((round (x * 10) : ℚ) - x * 10) / 10 := by
    ring
  rw [h10, abs_div]
  have habs : |(10 : ℚ)| = 10 := by norm_num
  rw [habs]
  calc |(round (x * 10) : ℚ) - x * 10| / 10 ≤ (1 / 2) / 10 := by gcongr
    _ = 1 / 20 := by norm_num

/-- C4: when the event set is nonempty, the four alert-code percentages sum
to 100 up to the one-decimal rounding each undergoes (within 1/5 of 100);
for the empty set all four percentages are 0 (the divisor is clamped to 1,
so no division by zero occurs). -/
theorem c4_percentages (events : List Event) :
    (events ≠ [] →
      |((processEventsByAlertCode events).map (fun r => r.percentage)).sum - 100| ≤ 1 / 5) ∧
    (∀ r ∈ processEventsByAlertCode ([] : List Event), r.percentage = 0) := by
  constructor
  · intro hne
    have hn : events.length ≠ 0 := fun h => hne (List.length_eq_zero.mp h)
    have hnq : (events.length : ℚ) ≠ 0 := Nat.cast_ne_zero.mpr hn
    have hsum : ((processEventsByAlertCode events).map (fun r => r.value)).sum
        = events.length := processEventsByAlertCode_sum events
    unfold processEventsByAlertCode at hsum ⊢
    simp only [allAlertCodes, List.map_cons, List.map_nil, List.sum_cons,
      List.sum_nil, add_zero, if_neg hn] at hsum ⊢
    set vG := bucketCounts (fun e => e.alert_code) events AlertCode.GREEN with hvG
    set vY := bucketCounts (fun e => e.alert_code) events AlertCode.YELLOW with hvY
    set vO := bucketCounts (fun e => e.alert_code) events AlertCode.ORANGE with hvO
    set vR := bucketCounts (fun e => e.alert_code) events AlertCode.RED with hvR
    set xG := (vG : ℚ) / (events.length : ℚ) * 100 with hxG
    set xY := (vY : ℚ) / (events.length : ℚ) * 100 with hxY
    set xO := (vO : ℚ) / (events.length : ℚ) * 100 with hxO
    set xR := (vR : ℚ) / (events.length : ℚ) * 100 with hxR
    have hx : xG + xY + xO + xR = 100 := by
      rw [hxG, hxY, hxO, hxR]
      have hnat : vG + vY + vO + vR = events.length := by omega
      have hcast : (vG : ℚ) + (vY : ℚ) + (vO : ℚ) + (vR : ℚ) = (events.length : ℚ) := by
        exact_mod_cast hnat
      field_simp
      linarith [hcast]
    have hkey : toFixed1 xG + (toFixed1 xY + (toFixed1 xO + toFixed1 xR)) - 100
        = (toFixed1 xG - xG) + (toFixed1 xY - xY)
          + (toFixed1 xO - xO) + (toFixed1 xR - xR) := by
      rw [← hx]; ring
    have hbG := abs_toFixed1_sub xG
    have hbY := abs_toFixed1_sub xY
    have hbO := abs_toFixed1_sub xO
    have hbR := abs_toFixed1_sub xR
    have htri : |(toFixed1 xG - xG) + (toFixed1 xY - xY)
        + (toFixed1 xO - xO) + (toFixed1 xR - xR)| ≤ 4 * (1 / 20) := by
      calc |(toFixed1 xG - xG) + (toFixed1 xY - xY)
              + (toFixed1 xO - xO) + (toFixed1 xR - xR)|
          ≤ |(toFixed1 xG - xG) + (toFixed1 xY - xY) + (toFixed1 xO - xO)|
            + |toFixed1 xR - xR| := abs_add _ _
        _ ≤ |(toFixed1 xG - xG) + (toFixed1 xY - xY)| + |toFixed1 xO - xO|
            + |toFixed1 xR - xR| := by gcongr; exact abs_add _ _
        _ ≤ |toFixed1 xG - xG| + |toFixed1 xY - xY| + |toFixed1 xO - xO|
            + |toFixed1 xR - xR| := by gcongr; exact abs_add _ _
        _ ≤ 4 * (1 / 20) := by linarith
    calc |toFixed1 xG + (toFixed1 xY + (toFixed1 xO + toFixed1 xR)) - 100|
        = |(toFixed1 xG - xG) + (toFixed1 xY - xY)
            + (toFixed1 xO - xO) + (toFixed1 xR - xR)| := by rw [hkey]
      _ ≤ 4 * (1 / 20) := htri
      _ = 1 / 5 := by norm_num
  · intro r hr
    unfold processEventsByAlertCode at hr
    simp only [allAlertCodes, List.map_cons, List.map_nil, List.mem_cons,
      List.not_mem_nil, or_false] at hr
    have hzero : ∀ c : AlertCode, bucketCounts (fun e => e.alert_code) ([] : List Event) c = 0 :=
      fun c => rfl
    have hfix : toFixed1 ((0 : ℚ) / (1 : ℚ) * 100) = 0 := by
      unfold toFixed1
      norm_num
    rcases hr with h | h | h | h <;>
      (subst h; simp only [List.length_nil, if_pos rfl, hzero, Nat.cast_zero]; exact hfix)

/-- Witness for C4 on a nonempty one-event set. -/
theorem c4_percentages_witness :
    |((processEventsByAlertCode [demoEvent1]).map (fun r => r.percentage)).sum - 100|
      ≤ 1 / 5 :=
  (c4_percentages [demoEvent1]).1 (by decide)

/- Statistics calculator. -/

/-- Milliseconds in a day, the constant 1000 * 60 * 60 * 24 of the source. -/
def dayMs : Int := 1000 * 60 * 60 * 24

/-- Milliseconds in an hour. -/
def hourMs : Int := 1000 * 60 * 60

/-- Math.min over the nonempty spread of event timestamps. -/
def listMinTime (e : Event) (es : List Event) : Int :=
  es.foldl (fun m x => min m x.date.time) e.date.time

/-- Math.max over the nonempty spread of event timestamps. -/
def listMaxTime (e : Event) (es : List Event) : Int :=
  es.foldl (fun m x => max m x.date.time) e.date.time

/-- Day span used by calculateStatistics:
Math.max(1, Math.ceil((maxDate - minDate) / 86400000)). -/
def daysDiffOf (e : Event) (es : List Event) : Int :=
  max 1 ⌈((listMaxTime e es - listMinTime e es : ℚ) / (dayMs : ℚ))⌉

/-- Output of calculateStatistics.  The source renders avgPerDay, trend and
urgentPercent through toFixed(1); the fields hold the numeric values the
rendered strings denote. -/
structure Stats where
  total : Nat
  avgPerDay : ℚ
  trend : ℚ
  urgentPercent : ℚ
deriving DecidableEq

/-- calculateStatistics: zeros on the empty set; otherwise total count,
average per clamped day span, week-over-week trend (0 when the prior week
is empty) and urgent share.  The JS Date on both week boundaries is
modelled as now minus exact multiples of a day in milliseconds. -/
def calculateStatistics (now : Int) (events : List Event) : Stats :=
  match events with
  | [] => { total := 0, avgPerDay := 0, trend := 0, urgentPercent := 0 }
  | e :: es =>
    let daysDiff := daysDiffOf e es
    let lastWeek := (e :: es).countP (fun x => decide (now - 7 * dayMs ≤ x.date.time))
    let prevWeek := (e :: es).countP (fun x =>
      decide (now - 14 * dayMs ≤ x.date.time ∧ x.date.time < now - 7 * dayMs))
    let trendRaw : ℚ :=
      if 0 < prevWeek then (((lastWeek : ℚ) - (prevWeek : ℚ)) / (prevWeek : ℚ)) * 100 else 0
    let urgentCount := (e :: es).countP (fun x =>
      decide (x.alert_code = AlertCode.RED ∨ x.alert_code = AlertCode.ORANGE))
    { total := (e :: es).length
      avgPerDay := toFixed1 (((e :: es).length : ℚ) / (daysDiff : ℚ))
      trend := toFixed1 trendRaw
      urgentPercent := toFixed1 (((urgentCount : ℚ) / ((e :: es).length : ℚ)) * 100) }

/-- C6: calculateStatistics returns all-zero statistics on the empty set, and
on any nonempty set its day-span divisor is clamped to at least 1 (so the
average-per-day division is by a nonzero quantity; the other two divisions
are by the nonzero event count and, guarded by the positivity test, the
prior-week count); a single-element set gets an average of exactly 1. -/
theorem c6_statistics_safe :
    (∀ now : Int, calculateStatistics now [] =
      { total := 0, avgPerDay := 0, trend := 0, urgentPercent := 0 }) ∧
    (∀ (e : Event) (es : List Event), 1 ≤ daysDiffOf e es) ∧
    (∀ (now : Int) (e : Event), (calculateStatistics now [e]).avgPerDay = 1) := by
  refine ⟨fun _ => rfl, fun e es => le_max_left 1 _, ?_⟩
  intro now e
  have hd : daysDiffOf e [] = 1 := by
    unfold daysDiffOf listMinTime listMaxTime
    simp
  simp only [calculateStatistics, hd]
  norm_num [toFixed1, round_eq]

/- Time-range filter. -/

/-- The four selector values of the analytics page toggle. -/
inductive TimeRange
  | d7
  | d30
  | d90
  | all
deriving DecidableEq

/-- The daysMap lookup of the source: defined on the three non-all
selectors. -/
def rangeDays : TimeRange → Option Nat
  | .d7 => some 7
  | .d30 => some 30
  | .d90 => some 90
  | .all => none

/-- displayEvents: for a non-all selector keep exactly the events whose
reported_at is at or after now minus the selected number of days; the all
selector passes the input through unchanged. -/
def displayEvents (now : Int) (timeRange : TimeRange) (events : List Event) : List Event :=
  match rangeDays timeRange with
  | none => events
  | some n => events.filter (fun e => decide (now - (n : Int) * dayMs ≤ e.date.time))

/-- C7: the time-range filter keeps exactly the events dated at or after now
minus N days for the 7, 30 and 90 day selectors, and returns the input
unchanged for the all selector; an event dated exactly 8 days before now is
excluded by the 7-day selector and one dated 6 days 23 hours before now is
included. -/
theorem c7_time_range_filter (now : Int) (sel : TimeRange) (events : List Event) :
    (∀ n : Nat, rangeDays sel = some n →
      ∀ e, e ∈ displayEvents now sel events ↔
        (e ∈ events ∧ now - (n : Int) * dayMs ≤ e.date.time)) ∧
    displayEvents now TimeRange.all events = events ∧
    (∀ e, e.date.time = now - 8 * dayMs → e ∉ displayEvents now TimeRange.d7 events) ∧
    (∀ e, e ∈ events → e.date.time = now - (6 * dayMs + 23 * hourMs) →
      e ∈ displayEvents now TimeRange.d7 events) := by
  refine ⟨?_, rfl, ?_, ?_⟩
  · intro n hn e
    cases sel <;> simp only [rangeDays, Option.some.injEq, reduceCtorEq] at hn
    · subst hn
      simp [displayEvents, rangeDays, List.mem_filter]
    · subst hn
      simp [displayEvents, rangeDays, List.mem_filter]
    · subst hn
      simp [displayEvents, rangeDays, List.mem_filter]
  · intro e he
    simp only [displayEvents, rangeDays, List.mem_filter, decide_eq_true_eq, not_and]
    intro _
    rw [he]
    simp only [dayMs]
    omega
  · intro e he ht
    simp only [displayEvents, rangeDays, List.mem_filter, decide_eq_true_eq]
    refine ⟨he, ?_⟩
    rw [ht]
    simp only [dayMs, hourMs]
    omega

/-- Sample event dated exactly 8 days before time 0. -/
def demoOldEvent : Event :=
  { id := "old", alert_code := .YELLOW, description := "", tags := [],
    reporter_id := "u3",
    date := { month := 0, weekday := 0, hour := 0, time := -691200000,
              dateKey := "1969-12-24" } }

/-- Sample event dated exactly 6 days 23 hours before time 0. -/
def demoRecentEvent : Event :=
  { id := "recent", alert_code := .ORANGE, description := "", tags := [],
    reporter_id := "u4",
    date := { month := 0, weekday := 0, hour := 1, time := -601200000,
              dateKey := "1969-12-25" } }

/-- Witness for C7: with now = 0 and the 7-day selector, the event 8 days old
is dropped and the event 6 days 23 hours old is kept; the all selector is
the identity. -/
theorem c7_time_range_filter_witness :
    demoOldEvent ∉ displayEvents 0 TimeRange.d7 [demoOldEvent, demoRecentEvent] ∧
    demoRecentEvent ∈ displayEvents 0 TimeRange.d7 [demoOldEvent, demoRecentEvent] ∧
    displayEvents 0 TimeRange.all [demoOldEvent, demoRecentEvent]
      = [demoOldEvent, demoRecentEvent] := by
  have h := c7_time_range_filter 0 TimeRange.d7 [demoOldEvent, demoRecentEvent]
  have hall := c7_time_range_filter 0 TimeRange.all [demoOldEvent, demoRecentEvent]
  exact ⟨h.2.2.1 demoOldEvent (by decide),
         h.2.2.2 demoRecentEvent (by decide) (by decide),
         hall.2.1⟩

/- Insertion-ordered association list of counts, modelling a JS Record whose
Object.entries order is observed (tag counts, date groups). -/

/-- One counting step on a JS Record: increment the entry of the key when
present, otherwise append the key with count 1 (JS objects keep string keys
in insertion order). -/
def entriesInc (entries : List (String × Nat)) (k : String) : List (String × Nat) :=
  match entries with
  | [] => [(k, 1)]
  | (k', c) :: rest => if k' = k then (k', c + 1) :: rest else (k', c) :: entriesInc rest k

/-- Object.entries of the count Record accumulated over a key list. -/
def countEntries (keys : List String) : List (String × Nat) :=
  keys.foldl entriesInc []

/-- Record lookup with the default 0 of the counting idiom. -/
def lookup0 (entries : List (String × Nat)) (k : String) : Nat :=
  match entries with
  | [] => 0
  | (k', c) :: rest => if k' = k then c else lookup0 rest k

theorem lookup0_entriesInc_same (acc : List (String × Nat)) (k : String) :
    lookup0 (entriesInc acc k) k = lookup0 acc k + 1 := by
  induction acc with
  | nil => simp [entriesInc, lookup0]
  | cons p rest ih =>
    obtain ⟨k', c⟩ := p
    by_cases h : k' = k
    · simp [entriesInc, lookup0, h]
    · simp [entriesInc, lookup0, h, ih]

theorem lookup0_entriesInc_ne (acc : List (String × Nat)) {k k' : String} (h : k' ≠ k) :
    lookup0 (entriesInc acc k) k' = lookup0 acc k' := by
  induction acc with
  | nil => simp [entriesInc, lookup0, Ne.symm h]
  | cons p rest ih =>
    obtain ⟨k₀, c⟩ := p
    by_cases h0 : k₀ = k
    · subst h0
      simp [entriesInc, lookup0, Ne.symm h]
    · by_cases h1 : k₀ = k'
      · simp [entriesInc, lookup0, h0, h1, h]
      · simp [entriesInc, lookup0, h0, h1, ih]

theorem lookup0_foldl_entriesInc :
    ∀ (keys : List String) (acc : List (String × Nat)) (k : String),
      lookup0 (keys.foldl entriesInc acc) k = lookup0 acc k + keys.count k := by
  intro keys
  induction keys with
  | nil => intro acc k; simp
  | cons x xs ih =>
    intro acc k
    simp only [List.foldl_cons, ih, List.count_cons]
    by_cases h : x = k
    · subst h
      rw [lookup0_entriesInc_same]
      simp
      omega
    · rw [lookup0_entriesInc_ne acc (Ne.symm h)]
      simp [h]

/-- The count Record holds, at each key, the number of occurrences of that
key in the input list. -/
theorem lookup0_countEntries (keys : List String) (k : String) :
    lookup0 (countEntries keys) k = keys.count k := by
  unfold countEntries
  rw [lookup0_foldl_entriesInc]
  simp [lookup0]

theorem fst_entriesInc (acc : List (String × Nat)) (k : String) :
    (entriesInc acc k).map Prod.fst
      = if k ∈ acc.map Prod.fst then acc.map Prod.fst else acc.map Prod.fst ++ [k] := by
  induction acc with
  | nil => simp [entriesInc]
  | cons p rest ih =>
    obtain ⟨k₀, c⟩ := p
    by_cases h : k₀ = k
    · subst h
      simp [entriesInc]
    · simp only [entriesInc, if_neg h, List.map_cons, List.mem_cons]
      have hne : ¬ k = k₀ := fun hk => h hk.symm
      by_cases hmem : k ∈ rest.map Prod.fst
      · simp [hne, hmem, ih]
      · simp [hne, hmem, ih]

theorem mem_fst_entriesInc (acc : List (String × Nat)) (k k' : String) :
    k' ∈ (entriesInc acc k).map Prod.fst ↔ k' ∈ acc.map Prod.fst ∨ k' = k := by
  rw [fst_entriesInc]
  by_cases hmem : k ∈ acc.map Prod.fst
  · simp only [if_pos hmem]
    constructor
    · exact fun h => Or.inl h
    · rintro (h | rfl)
      · exact h
      · exact hmem
  · simp [if_neg hmem, List.mem_append]

theorem nodup_fst_entriesInc (acc : List (String × Nat)) (k : String)
    (h : (acc.map Prod.fst).Nodup) : ((entriesInc acc k).map Prod.fst).Nodup := by
  rw [fst_entriesInc]
  by_cases hmem : k ∈ acc.map Prod.fst
  · simpa [if_pos hmem] using h
  · rw [if_neg hmem]
    simp [List.nodup_append, h, hmem]

theorem nodup_fst_foldl_entriesInc :
    ∀ (keys : List String) (acc : List (String × Nat)),
      (acc.map Prod.fst).Nodup → ((keys.foldl entriesInc acc).map Prod.fst).Nodup := by
  intro keys
  induction keys with
  | nil => intro acc h; simpa using h
  | cons x xs ih =>
    intro acc h
    exact ih (entriesInc acc x) (nodup_fst_entriesInc acc x h)

theorem nodup_fst_countEntries (keys : List String) :
    ((countEntries keys).map Prod.fst).Nodup :=
  nodup_fst_foldl_entriesInc keys [] (by simp)

theorem mem_fst_foldl_entriesInc :
    ∀ (keys : List String) (acc : List (String × Nat)) (k : String),
      k ∈ (keys.foldl entriesInc acc).map Prod.fst ↔ k ∈ acc.map Prod.fst ∨ k ∈ keys := by
  intro keys
  induction keys with
  | nil => intro acc k; simp
  | cons x xs ih =>
    intro acc k
    simp only [List.foldl_cons, ih, mem_fst_entriesInc, List.mem_cons]
    tauto

/-- The keys of the count Record are exactly the distinct input keys. -/
theorem mem_fst_countEntries (keys : List String) (k : String) :
    k ∈ (countEntries keys).map Prod.fst ↔ k ∈ keys := by
  unfold countEntries
  rw [mem_fst_foldl_entriesInc]
  simp

theorem lookup0_of_mem :
    ∀ (acc : List (String × Nat)) (k : String) (c : Nat),
      (acc.map Prod.fst).Nodup → (k, c) ∈ acc → lookup0 acc k = c := by
  intro acc
  induction acc with
  | nil => intro k c _ h; simp at h
  | cons p rest ih =>
    intro k c hnd hmem
    obtain ⟨k₀, c₀⟩ := p
    rcases List.mem_cons.mp hmem with h | h
    · injection h with h1 h2
      subst h1
      subst h2
      simp [lookup0]
    · have hne : k₀ ≠ k := by
        rintro rfl
        have : k₀ ∈ rest.map Prod.fst := List.mem_map_of_mem Prod.fst h
        exact (List.nodup_cons.mp (by simpa using hnd)).1 this
      simp only [lookup0, if_neg hne]
      exact ih k c (List.nodup_cons.mp (by simpa using hnd)).2 h

theorem mem_of_mem_fst :
    ∀ (acc : List (String × Nat)) (k : String),
      k ∈ acc.map Prod.fst → (k, lookup0 acc k) ∈ acc := by
  intro acc
  induction acc with
  | nil => intro k h; simp at h
  | cons p rest ih =>
    intro k h
    obtain ⟨k₀, c₀⟩ := p
    by_cases h0 : k₀ = k
    · subst h0
      simp [lookup0]
    · simp only [List.map_cons, List.mem_cons] at h
      rcases h with h | h

      · exact absurd h.symm h0
      · simp only [lookup0, if_neg h0]
        exact List.mem_cons_of_mem _ (ih k h)

/-- Every entry of the count Record records the occurrence count of its key. -/
theorem countEntries_count {keys : List String} {k : String} {c : Nat}
    (h : (k, c) ∈ countEntries keys) : c = keys.count k := by
  have hk := lookup0_of_mem (countEntries keys) k c (nodup_fst_countEntries keys) h
  rw [← hk, lookup0_countEntries]

/-- The count Record has one entry per distinct input key. -/
theorem length_countEntries (keys : List String) :
    (countEntries keys).length = keys.dedup.length := by
  have h1 : (countEntries keys).length = ((countEntries keys).map Prod.fst).length := by
    simp
  rw [h1]
  have hnd := nodup_fst_countEntries keys
  have hcard : ((countEntries keys).map Prod.fst).toFinset.card
      = ((countEntries keys).map Prod.fst).length := List.toFinset_card_of_nodup hnd
  have hset : ((countEntries keys).map Prod.fst).toFinset = keys.toFinset := by
    ext x
    simp only [List.mem_toFinset]
    exact mem_fst_countEntries keys x
  rw [← hcard, hset, List.card_toFinset]

/- Stable comparator sort, modelling Array.prototype.sort with a consistent
comparator: lt a b holds when the comparator orders a strictly before b. -/

/-- Insert an element into a sorted list, after every element that strictly
precedes it (so equal-ranked earlier elements stay in front: stability). -/
def insertSorted {α : Type} (lt : α → α → Bool) (p : α) : List α → List α
  | [] => [p]
  | q :: rest => if lt q p then q :: insertSorted lt p rest else p :: q :: rest

/-- Stable insertion sort on a comparator. -/
def sortStable {α : Type} (lt : α → α → Bool) : List α → List α
  | [] => []
  | p :: rest => insertSorted lt p (sortStable lt rest)

theorem insertSorted_perm {α : Type} (lt : α → α → Bool) (p : α) :
    ∀ l : List α, (insertSorted lt p l).Perm (p :: l) := by
  intro l
  induction l with
  | nil => simp [insertSorted]
  | cons q rest ih =>
    by_cases h : lt q p
    · simp only [insertSorted, if_pos h]
      exact List.Perm.trans (List.Perm.cons q ih) (List.Perm.swap p q rest)
    · simp [insertSorted, if_neg h]

theorem sortStable_perm {α : Type} (lt : α → α → Bool) :
    ∀ l : List α, (sortStable lt l).Perm l := by
  intro l
  induction l with
  | nil => simp [sortStable]
  | cons p rest ih =>
    exact List.Perm.trans (insertSorted_perm lt p (sortStable lt rest)) (List.Perm.cons p ih)

theorem mem_insertSorted {α : Type} {lt : α → α → Bool} {p x : α} {l : List α}
    (h : x ∈ insertSorted lt p l) : x = p ∨ x ∈ l := by
  have := (insertSorted_perm lt p l).mem_iff.mp h
  simpa using this

/-- Insertion keeps the list sorted, given that strict precedence is
asymmetric and that non-precedence is transitive. -/
theorem insertSorted_pairwise {α : Type} {lt : α → α → Bool}
    (hasymm : ∀ a b, lt a b = true → lt b a = false)
    (hcompl : ∀ a b c, lt b a = false → lt c b = false → lt c a = false)
    (p : α) :
    ∀ l : List α, List.Pairwise (fun a b => lt b a = false) l →
      List.Pairwise (fun a b => lt b a = false) (insertSorted lt p l) := by
  intro l
  induction l with
  | nil => intro _; simp [insertSorted]
  | cons q rest ih =>
    intro hsort
    obtain ⟨hq, hrest⟩ := List.pairwise_cons.mp hsort
    by_cases h : lt q p
    · simp only [insertSorted, if_pos h]
      refine List.pairwise_cons.mpr ⟨?_, ih hrest⟩
      intro x hx
      rcases mem_insertSorted hx with rfl | hx
      · exact hasymm q x h
      · exact hq x hx
    · simp only [insertSorted, if_neg h]
      refine List.pairwise_cons.mpr ⟨?_, hsort⟩
      intro x hx
      have hqp : lt q p = false := by
        cases hlt : lt q p
        · rfl
        · exact absurd hlt h
      rcases List.mem_cons.mp hx with rfl | hx
      · exact hqp
      · exact hcompl p q x hqp (hq x hx)

theorem sortStable_pairwise {α : Type} {lt : α → α → Bool}
    (hasymm : ∀ a b, lt a b = true → lt b a = false)
    (hcompl : ∀ a b c, lt b a = false → lt c b = false → lt c a = false) :
    ∀ l : List α, List.Pairwise (fun a b => lt b a = false) (sortStable lt l) := by
  intro l
  induction l with
  | nil => simp [sortStable]
  | cons p rest ih => exact insertSorted_pairwise hasymm hcompl p _ ih

/- Top tags. -/

/-- Comparator (a, b) => b[1] - a[1] of processTopTags: an entry strictly
precedes another when its count is larger. -/
def tagLt (a b : String × Nat) : Bool := decide (b.2 < a.2)

/-- Output row of processTopTags. -/
structure TagCount where
  tag : String
  count : Nat
deriving DecidableEq

/-- processTopTags: count tag occurrences over the concatenation of the tag
lists of all events (nested forEach), sort the entries descending by count,
keep the first 10, and package each entry as a row. -/
def processTopTags (events : List Event) : List TagCount :=
  let tagCounts := countEntries (events.flatMap (fun e => e.tags))
  ((sortStable tagLt tagCounts).take 10).map (fun p => { tag := p.1, count := p.2 })

theorem tagLt_asymm (a b : String × Nat) : tagLt a b = true → tagLt b a = false := by
  simp only [tagLt, decide_eq_true_eq, decide_eq_false_iff_not]
  omega

theorem tagLt_compl_trans (a b c : String × Nat) :
    tagLt b a = false → tagLt c b = false → tagLt c a = false := by
  simp only [tagLt, decide_eq_false_iff_not]
  omega

/-- Entries surviving into the top-tags output carry their true global count. -/
theorem processTopTags_mem {events : List Event} {p : TagCount}
    (hp : p ∈ processTopTags events) :
    p.count = (events.flatMap (fun e => e.tags)).count p.tag := by
  unfold processTopTags at hp
  simp only [List.mem_map] at hp
  obtain ⟨q, hq, rfl⟩ := hp
  have hq1 : q ∈ sortStable tagLt (countEntries (events.flatMap (fun e => e.tags))) :=
    List.take_subset 10 _ hq
  have hq2 : q ∈ countEntries (events.flatMap (fun e => e.tags)) :=
    (sortStable_perm tagLt _).mem_iff.mp hq1
  obtain ⟨k, c⟩ := q
  exact countEntries_count hq2

/-- C5: the top-tags output has at most 10 rows, its counts are
non-increasing, and the count of each listed tag is its total number of
occurrences across the tag lists of all events. -/
theorem c5_top_tags (events : List Event) :
    (processTopTags events).length ≤ 10 ∧
    List.Pairwise (fun a b => b.count ≤ a.count) (processTopTags events) ∧
    (∀ p ∈ processTopTags events,
      p.count = (events.flatMap (fun e => e.tags)).count p.tag) := by
  refine ⟨?_, ?_, fun p hp => processTopTags_mem hp⟩
  · unfold processTopTags
    rw [List.length_map, List.length_take]
    exact min_le_left 10 _
  · unfold processTopTags
    rw [List.pairwise_map]
    have hsorted := sortStable_pairwise tagLt_asymm tagLt_compl_trans
      (countEntries (events.flatMap (fun e => e.tags)))
    have htake := List.Pairwise.sublist (List.take_sublist 10 _) hsorted
    refine htake.imp ?_
    intro a b hab
    simp only [tagLt, decide_eq_false_iff_not] at hab
    show b.2 ≤ a.2
    omega

/-- Witness for C5 on the two-event sample set: the tag appearing in both
events is listed with count 2 and the other with count 1, non-increasing. -/
theorem c5_top_tags_witness :
    (processTopTags [demoEvent1, demoEvent2]).length ≤ 10 ∧
    List.Pairwise (fun a b => b.count ≤ a.count) (processTopTags [demoEvent1, demoEvent2]) ∧
    ({ tag := "fire", count := 2 } : TagCount).count
      = (([demoEvent1, demoEvent2].flatMap (fun e => e.tags)).count "fire") := by
  have h := c5_top_tags [demoEvent1, demoEvent2]
  refine ⟨h.1, h.2.1, ?_⟩
  have hmem : ({ tag := "fire", count := 2 } : TagCount) ∈ processTopTags [demoEvent1, demoEvent2] := by
    decide
  simpa using h.2.2 _ hmem

/-- C10: when one event repeats a tag in its own tag list, each occurrence is
counted: the tag appears in the top-tags output of that single event with
its full multiplicity (at least 2), provided the event has at most 10
distinct tags so that truncation cannot remove it. -/
theorem c10_duplicate_tags_counted (e : Event) (t : String)
    (hdistinct : e.tags.dedup.length ≤ 10) (hdup : 2 ≤ e.tags.count t) :
    ∃ p ∈ processTopTags [e], p.tag = t ∧ p.count = e.tags.count t ∧ 2 ≤ p.count := by
  have hflat : [e].flatMap (fun x => x.tags) = e.tags := by
    simp
  have hmem_t : t ∈ e.tags := by
    have : 0 < e.tags.count t := by omega
    exact List.count_pos_iff.mp this
  have hkeys : t ∈ (countEntries e.tags).map Prod.fst :=
    (mem_fst_countEntries e.tags t).mpr hmem_t
  have hpair : (t, lookup0 (countEntries e.tags) t) ∈ countEntries e.tags :=
    mem_of_mem_fst (countEntries e.tags) t hkeys
  have hval : lookup0 (countEntries e.tags) t = e.tags.count t :=
    lookup0_countEntries e.tags t
  have hlen : (sortStable tagLt (countEntries e.tags)).length ≤ 10 := by
    rw [(sortStable_perm tagLt _).length_eq, length_countEntries]
    exact hdistinct
  have htake : (sortStable tagLt (countEntries e.tags)).take 10
      = sortStable tagLt (countEntries e.tags) := List.take_of_length_le hlen
  have hsortmem : (t, lookup0 (countEntries e.tags) t) ∈ sortStable tagLt (countEntries e.tags) :=
    (sortStable_perm tagLt _).mem_iff.mpr hpair
  refine ⟨{ tag := t, count := e.tags.count t }, ?_, rfl, rfl, hdup⟩
  unfold processTopTags
  simp only [hflat]
  rw [htake, List.mem_map]
  exact ⟨(t, lookup0 (countEntries e.tags) t), hsortmem, by rw [hval]⟩

/-- Sample event whose tag list repeats a tag. -/
def demoDupTagEvent : Event :=
  { id := "e3", alert_code := .RED, description := "", tags := ["fire", "fire", "smoke"],
    reporter_id := "u5",
    date := { month := 2, weekday := 5, hour := 9, time := 1710493200000,
              dateKey := "2024-03-15" } }

/-- Witness for C10: the event with tag list [fire, fire, smoke] alone
contributes 2 to the fire count. -/
theorem c10_duplicate_tags_counted_witness :
    ∃ p ∈ processTopTags [demoDupTagEvent], p.tag = "fire" ∧
      p.count = demoDupTagEvent.tags.count "fire" ∧ 2 ≤ p.count :=
  c10_duplicate_tags_counted demoDupTagEvent "fire" (by decide) (by decide)

/- Trend by calendar date. -/

/-- Strict lexicographic order on character lists by code point, the order
localeCompare induces on the ASCII YYYY-MM-DD date keys. -/
def charListLt : List Char → List Char → Bool
  | [], [] => false
  | [], _ :: _ => true
  | _ :: _, [] => false
  | a :: as, b :: bs =>
    if a.toNat < b.toNat then true
    else if b.toNat < a.toNat then false
    else charListLt as bs

/-- Comparator (a, b) => a[0].localeCompare(b[0]) of processEventsTrend: an
entry strictly precedes another when its date key is smaller. -/
def keyLt (a b : String × Nat) : Bool := charListLt a.1.data b.1.data

/-- Non-strict key comparison: a is at or before b. -/
def jsStrLe (a b : String) : Bool := ! charListLt b.data a.data

theorem charListLt_asymm : ∀ a b : List Char, charListLt a b = true → charListLt b a = false := by
  intro a
  induction a with
  | nil =>
    intro b h
    cases b with
    | nil => simp [charListLt] at h
    | cons y ys => rfl
  | cons x xs ih =>
    intro b h
    cases b with
    | nil => simp [charListLt] at h
    | cons y ys =>
      by_cases h1 : x.toNat < y.toNat
      · have h2 : ¬ y.toNat < x.toNat := by omega
        simp only [charListLt, if_neg h2, if_pos h1]
      · by_cases h2 : y.toNat < x.toNat
        · simp [charListLt, if_neg h1, if_pos h2] at h
        · simp only [charListLt, if_neg h1, if_neg h2] at h
          simp only [charListLt, if_neg h1, if_neg h2]
          exact ih ys h

theorem charListLt_compl_trans :
    ∀ a b c : List Char, charListLt b a = false → charListLt c b = false →
      charListLt c a = false := by
  intro a
  induction a with
  | nil =>
    intro b c _ _
    cases c with
    | nil => rfl
    | cons z zs => rfl
  | cons x xs ih =>
    intro b c h1 h2
    cases b with
    | nil => simp [charListLt] at h1
    | cons y ys =>
      cases c with
      | nil => simp [charListLt] at h2
      | cons z zs =>
        have hyx : ¬ y.toNat < x.toNat := by
          intro hlt
          have h0 : ¬ x.toNat < y.toNat := by omega
          simp [charListLt, if_pos hlt] at h1
        have hzy : ¬ z.toNat < y.toNat := by
          intro hlt
          have h0 : ¬ y.toNat < z.toNat := by omega
          simp [charListLt, if_pos hlt] at h2
        have hzx : ¬ z.toNat < x.toNat := by omega
        by_cases hxz : x.toNat < z.toNat
        · simp only [charListLt, if_neg hzx, if_pos hxz]
        · have hxy : ¬ x.toNat < y.toNat := by omega
          have hyz : ¬ y.toNat < z.toNat := by omega
          simp only [charListLt, if_neg hyx, if_neg hxy] at h1
          simp only [charListLt, if_neg hzy, if_neg hyz] at h2
          simp only [charListLt, if_neg hzx, if_neg hxz]
          exact ih ys zs h1 h2

theorem keyLt_asymm (a b : String × Nat) : keyLt a b = true → keyLt b a = false :=
  charListLt_asymm a.1.data b.1.data

theorem keyLt_compl_trans (a b c : String × Nat) :
    keyLt b a = false → keyLt c b = false → keyLt c a = false :=
  charListLt_compl_trans a.1.data b.1.data c.1.data

/-- processEventsTrend: group events into per-calendar-date buckets keyed by
the ISO date part of reported_at, sort the entries ascending by key, and
keep the final 30 entries (slice(-30), so all of them when fewer than 30).
The display relabeling the source then applies to each bucket label
(toLocaleDateString) is a per-entry map preserving order and counts and is
not modelled; the entries carry the ISO date keys. -/
def processEventsTrend (events : List Event) : List (String × Nat) :=
  let dateGroups := countEntries (events.map (fun e => e.date.dateKey))
  let sorted := sortStable keyLt dateGroups
  sorted.drop (sorted.length - 30)

/-- C8: the trend output is sorted ascending by calendar date; every bucket
carries the exact number of events on its date (hence at least one); the
output keeps exactly min(number of distinct dates, 30) buckets — the most
recent ones, since every distinct date key that is dropped precedes every
retained bucket — and keeps all buckets when fewer than 30 distinct dates
occur. -/
theorem c8_trend (events : List Event) :
    List.Pairwise (fun a b => jsStrLe a.1 b.1 = true) (processEventsTrend events) ∧
    (∀ p ∈ processEventsTrend events,
      p.2 = (events.map (fun e => e.date.dateKey)).count p.1 ∧ 1 ≤ p.2) ∧
    (processEventsTrend events).length
      = min (events.map (fun e => e.date.dateKey)).dedup.length 30 ∧
    ((events.map (fun e => e.date.dateKey)).dedup.length ≤ 30 →
      ∀ k, (∃ c, (k, c) ∈ processEventsTrend events)
        ↔ k ∈ events.map (fun e => e.date.dateKey)) ∧
    (∀ k ∈ events.map (fun e => e.date.dateKey),
      (∀ p ∈ processEventsTrend events, p.1 ≠ k) →
      ∀ p ∈ processEventsTrend events, jsStrLe k p.1 = true) := by
  set keys := events.map (fun e => e.date.dateKey) with hkeys
  set groups := countEntries keys with hgroups
  set sorted := sortStable keyLt groups with hsorted_def
  have hperm : sorted.Perm groups := sortStable_perm keyLt groups
  have hlen_sorted : sorted.length = keys.dedup.length := by
    rw [hperm.length_eq, hgroups, length_countEntries]
  have hout : processEventsTrend events = sorted.drop (sorted.length - 30) := rfl
  have hpair : List.Pairwise (fun a b => keyLt b a = false) sorted :=
    sortStable_pairwise keyLt_asymm keyLt_compl_trans groups
  have hdropsub : ∀ p, p ∈ sorted.drop (sorted.length - 30) → p ∈ sorted :=
    fun p hp => List.drop_subset (sorted.length - 30) sorted hp
  refine ⟨?_, ?_, ?_, ?_, ?_⟩
  · rw [hout]
    have hdp := List.Pairwise.sublist
      (List.drop_sublist (sorted.length - 30) sorted) hpair
    refine hdp.imp ?_
    intro a b hab
    simp only [jsStrLe, keyLt] at hab ⊢
    rw [hab]
    rfl
  · intro p hp
    rw [hout] at hp
    have hp1 : p ∈ groups := hperm.mem_iff.mp (hdropsub p hp)
    obtain ⟨k, c⟩ := p
    have hc : c = keys.count k := countEntries_count hp1
    have hkmem : k ∈ keys := by
      rw [← mem_fst_countEntries keys k, ← hgroups]
      exact List.mem_map_of_mem Prod.fst hp1
    have hpos : 0 < keys.count k := List.count_pos_iff.mpr hkmem
    exact ⟨hc, by omega⟩
  · rw [hout, List.length_drop, hlen_sorted]
    omega
  · intro hle k
    have hdrop0 : sorted.length - 30 = 0 := by omega
    rw [hout, hdrop0, List.drop_zero]
    constructor
    · rintro ⟨c, hc⟩
      have hc1 : (k, c) ∈ groups := hperm.mem_iff.mp hc
      rw [← mem_fst_countEntries keys k, ← hgroups]
      exact List.mem_map_of_mem Prod.fst hc1
    · intro hk
      have hfst : k ∈ groups.map Prod.fst := by
        rw [hgroups, mem_fst_countEntries]
        exact hk
      exact ⟨lookup0 groups k, hperm.mem_iff.mpr (mem_of_mem_fst groups k hfst)⟩
  · intro k hk hnot p hp
    have hfst : k ∈ groups.map Prod.fst := by
      rw [hgroups, mem_fst_countEntries]
      exact hk
    have hq : (k, lookup0 groups k) ∈ sorted :=
      hperm.mem_iff.mpr (mem_of_mem_fst groups k hfst)
    have hsplit := hpair
    rw [← List.take_append_drop (sorted.length - 30) sorted] at hsplit hq
    have hparts := List.pairwise_append.mp hsplit
    rw [hout] at hp hnot
    have hqtake : (k, lookup0 groups k) ∈ sorted.take (sorted.length - 30) := by
      rcases List.mem_append.mp hq with h | h
      · exact h
      · exact absurd rfl (hnot _ h)
    have := hparts.2.2 _ hqtake _ hp
    simp only [jsStrLe, keyLt] at this ⊢
    rw [this]
    rfl

/-- Witness for C8 on a two-event set with distinct dates: the older date
bucket is present with count 1 and the output size is the number of
distinct dates. -/
theorem c8_trend_witness :
    ((("1969-12-24" : String), (1 : Nat)) ∈ processEventsTrend [demoEvent1, demoOldEvent]) ∧
    ((("1969-12-24" : String), (1 : Nat)).2
      = ([demoEvent1, demoOldEvent].map (fun e => e.date.dateKey)).count "1969-12-24") ∧
    (processEventsTrend [demoEvent1, demoOldEvent]).length
      = min ([demoEvent1, demoOldEvent].map (fun e => e.date.dateKey)).dedup.length 30 := by
  have h := c8_trend [demoEvent1, demoOldEvent]
  exact ⟨by decide, (h.2.1 _ (by decide)).1, h.2.2.1⟩

/- Paginated fetch (eventsApi.getAllForAnalytics) and the analytics page
loader.  The backend is a function from the skip offset to the page it
serves for that offset, or a transport error; the while loop is embedded
with explicit fuel, and theorems assume the backend exhausts within it. -/

/-- The fixed page size of getAllForAnalytics. -/
def pageLimit : Nat := 100

/-- The fetch loop: request the page at the current skip offset; a failure
aborts the whole fetch with that error (partial results are discarded); a
page shorter than the limit ends the loop; otherwise advance the offset by
the limit and continue. -/
def fetchPages (backend : Nat → Except String (List Event)) :
    Nat → Nat → Except String (List Event)
  | 0, _ => Except.ok []
  | fuel + 1, skip =>
    match backend skip with
    | Except.error msg => Except.error msg
    | Except.ok page =>
      if page.length < pageLimit then Except.ok page
      else
        match fetchPages backend fuel (skip + pageLimit) with
        | Except.error msg => Except.error msg
        | Except.ok rest => Except.ok (page ++ rest)

/-- getAllForAnalytics: run the fetch loop from offset 0. -/
def getAllForAnalytics (backend : Nat → Except String (List Event)) (fuel : Nat) :
    Except String (List Event) :=
  fetchPages backend fuel 0

/-- Number of page requests the loop issues. -/
def requestCount (backend : Nat → Except String (List Event)) : Nat → Nat → Nat
  | 0, _ => 0
  | fuel + 1, skip =>
    match backend skip with
    | Except.error _ => 1
    | Except.ok page =>
      if page.length < pageLimit then 1
      else 1 + requestCount backend fuel (skip + pageLimit)

/-- The skip offsets the loop requests, in request order. -/
def requestedOffsets (backend : Nat → Except String (List Event)) : Nat → Nat → List Nat
  | 0, _ => []
  | fuel + 1, skip =>
    match backend skip with
    | Except.error _ => [skip]
    | Except.ok page =>
      if page.length < pageLimit then [skip]
      else skip :: requestedOffsets backend fuel (skip + pageLimit)

/-- State the analytics page keeps around loadEvents. -/
structure AnalyticsState where
  events : List Event
  error : Option String
  loading : Bool
deriving DecidableEq

/-- loadEvents: on success store the fetched events and clear the error; on
failure set the user-visible message and leave the event state untouched;
loading ends either way.  No retry is performed. -/
def loadEvents (fetchResult : Except String (List Event)) (st : AnalyticsState) :
    AnalyticsState :=
  match fetchResult with
  | Except.ok data => { st with events := data, error := none, loading := false }
  | Except.error _ =>
    { st with error := some "Could not load data from server", loading := false }

/-- Behaviour of the fetch loop from an arbitrary aligned offset when the
backend serves full pages up to index k and a short page at index k. -/
theorem fetchPages_ok_spec (pages : Nat → List Event) :
    ∀ (k j fuel : Nat),
      (∀ i, i < k → (pages (pageLimit * (j + i))).length = pageLimit) →
      (pages (pageLimit * (j + k))).length < pageLimit → k < fuel →
      fetchPages (fun s => Except.ok (pages s)) fuel (pageLimit * j)
        = Except.ok ((List.range (k + 1)).flatMap (fun i => pages (pageLimit * (j + i)))) ∧
      requestedOffsets (fun s => Except.ok (pages s)) fuel (pageLimit * j)
        = (List.range (k + 1)).map (fun i => pageLimit * (j + i)) ∧
      requestCount (fun s => Except.ok (pages s)) fuel (pageLimit * j) = k + 1 := by
  intro k
  induction k with
  | zero =>
    intro j fuel hfull hshort hfuel
    match fuel, hfuel with
    | fuel + 1, _ =>
      have hj : pageLimit * (j + 0) = pageLimit * j := by ring
      rw [hj] at hshort
      have hr1 : List.range 1 = [0] := rfl
      refine ⟨?_, ?_, ?_⟩
      · simp [fetchPages, if_pos hshort, hj, hr1]
      · simp [requestedOffsets, if_pos hshort, hj, hr1]
      · simp [requestCount, if_pos hshort]
  | succ k ih =>
    intro j fuel hfull hshort hfuel
    match fuel, hfuel with
    | fuel + 1, hfuel =>
      have hfirst : (pages (pageLimit * j)).length = pageLimit := by
        have := hfull 0 (Nat.succ_pos k)
        simpa using this
      have hnotshort : ¬ (pages (pageLimit * j)).length < pageLimit := by omega
      have hnext : pageLimit * j + pageLimit = pageLimit * (j + 1) := by ring
      have hih := ih (j + 1) fuel
        (fun i hi => by
          have := hfull (i + 1) (by omega)
          have harg : pageLimit * (j + (i + 1)) = pageLimit * (j + 1 + i) := by ring
          rwa [harg] at this)
        (by
          have harg : pageLimit * (j + (k + 1)) = pageLimit * (j + 1 + k) := by ring
          rwa [harg] at hshort)
        (by omega)
      have hsucc_eq : ∀ i : Nat, pageLimit * (j + i.succ) = pageLimit * (j + 1 + i) := by
        intro i
        simp only [Nat.succ_eq_add_one]
        ring
      have hshift : ∀ (f : Nat → List Event),
          (List.range (k + 2)).flatMap (fun i => f (pageLimit * (j + i)))
            = f (pageLimit * j)
              ++ (List.range (k + 1)).flatMap (fun i => f (pageLimit * (j + 1 + i))) := by
        intro f
        rw [List.range_succ_eq_map, List.flatMap_cons, List.flatMap_map]
        have hfun : (fun a => f (pageLimit * (j + a.succ)))
            = fun i => f (pageLimit * (j + 1 + i)) := by
          funext a
          rw [hsucc_eq]
        rw [hfun]
        simp
      have hshift2 : (List.range (k + 2)).map (fun i => pageLimit * (j + i))
          = pageLimit * j :: (List.range (k + 1)).map (fun i => pageLimit * (j + 1 + i)) := by
        rw [List.range_succ_eq_map, List.map_cons, List.map_map]
        have hfun : (fun i => pageLimit * (j + i)) ∘ Nat.succ
            = fun i => pageLimit * (j + 1 + i) := by
          funext i
          simp only [Function.comp_apply]
          rw [hsucc_eq]
        rw [hfun]
        simp
      refine ⟨?_, ?_, ?_⟩
      · simp only [fetchPages, if_neg hnotshort, hnext, hih.1, hshift]
      · simp only [requestedOffsets, if_neg hnotshort, hnext, hih.2.1, hshift2]
      · simp only [requestCount, if_neg hnotshort, hnext, hih.2.2]
        omega

/-- C1: when the backend serves full pages of 100 at offsets 0, 100, ...,
100(k-1) and a short page at offset 100k, getAllForAnalytics requests
exactly the offsets 0, 100, ..., 100k in order, returns the concatenation
of those k+1 pages in request order, and issues no further request; the
result length is 100k plus the short page length (237 for page sizes
[100, 100, 37]). -/
theorem c1_pagination (pages : Nat → List Event) (k fuel : Nat)
    (hfull : ∀ i, i < k → (pages (pageLimit * i)).length = pageLimit)
    (hshort : (pages (pageLimit * k)).length < pageLimit)
    (hfuel : k < fuel) :
    getAllForAnalytics (fun s => Except.ok (pages s)) fuel
      = Except.ok ((List.range (k + 1)).flatMap (fun i => pages (pageLimit * i))) ∧
    requestedOffsets (fun s => Except.ok (pages s)) fuel 0
      = (List.range (k + 1)).map (fun i => pageLimit * i) ∧
    requestCount (fun s => Except.ok (pages s)) fuel 0 = k + 1 ∧
    ((List.range (k + 1)).flatMap (fun i => pages (pageLimit * i))).length
      = pageLimit * k + (pages (pageLimit * k)).length := by
  have h := fetchPages_ok_spec pages k 0 fuel
    (fun i hi => by simpa using hfull i hi)
    (by simpa using hshort)
    hfuel
  have hzero : ∀ (f : Nat → List Event),
      (fun i => f (pageLimit * (0 + i))) = fun i => f (pageLimit * i) := by
    intro f
    funext i
    simp
  refine ⟨?_, ?_, ?_, ?_⟩
  · have h1 := h.1
    rw [show pageLimit * 0 = 0 by ring] at h1
    rw [getAllForAnalytics, h1, hzero]
  · have h2 := h.2.1
    rw [show pageLimit * 0 = 0 by ring] at h2
    rw [h2]
    congr 1
    funext i
    simp
  · have h3 := h.2.2
    rwa [show pageLimit * 0 = 0 by ring] at h3
  · rw [List.length_flatMap]
    rw [List.range_succ, List.map_append, List.sum_append]
    have hconst : (List.range k).map (fun i => (pages (pageLimit * i)).length)
        = (List.range k).map (fun _ => pageLimit) := by
      apply List.map_congr_left
      intro i hi
      exact hfull i (List.mem_range.mp hi)
    simp only [Function.comp_def]
    rw [hconst]
    simp [List.map_const, mul_comm]

/-- Backend serving pages of sizes 100, 100, 37. -/
def demoPages : Nat → List Event := fun skip =>
  if skip < 200 then List.replicate 100 demoEvent1 else List.replicate 37 demoEvent1

/-- Witness for C1: with pages of sizes [100, 100, 37] the fetch returns all
237 events after exactly 3 requests. -/
theorem c1_pagination_witness :
    getAllForAnalytics (fun s => Except.ok (demoPages s)) 10
      = Except.ok ((List.range 3).flatMap (fun i => demoPages (pageLimit * i))) ∧
    requestCount (fun s => Except.ok (demoPages s)) 10 0 = 3 ∧
    ((List.range 3).flatMap (fun i => demoPages (pageLimit * i))).length = 237 := by
  have h := c1_pagination demoPages 2 10 (by decide) (by decide) (by decide)
  refine ⟨h.1, h.2.2.1, ?_⟩
  rw [h.2.2.2]
  decide

/-- Behaviour of the fetch loop when the backend serves full pages up to
index k and fails at index k: the error propagates and the loop stops. -/
theorem fetchPages_error_spec (backend : Nat → Except String (List Event)) (msg : String) :
    ∀ (k j fuel : Nat),
      (∀ i, i < k → ∃ p, backend (pageLimit * (j + i)) = Except.ok p ∧ p.length = pageLimit) →
      backend (pageLimit * (j + k)) = Except.error msg → k < fuel →
      fetchPages backend fuel (pageLimit * j) = Except.error msg ∧
      requestCount backend fuel (pageLimit * j) = k + 1 := by
  intro k
  induction k with
  | zero =>
    intro j fuel hfull herr hfuel
    match fuel, hfuel with
    | fuel + 1, _ =>
      have hj : pageLimit * (j + 0) = pageLimit * j := by ring
      rw [hj] at herr
      constructor
      · simp [fetchPages, herr]
      · simp [requestCount, herr]
  | succ k ih =>
    intro j fuel hfull herr hfuel
    match fuel, hfuel with
    | fuel + 1, hfuel =>
      obtain ⟨p, hp, hplen⟩ := hfull 0 (Nat.succ_pos k)
      rw [show pageLimit * (j + 0) = pageLimit * j by ring] at hp
      have hnotshort : ¬ p.length < pageLimit := by omega
      have hnext : pageLimit * j + pageLimit = pageLimit * (j + 1) := by ring
      have hih := ih (j + 1) fuel
        (fun i hi => by
          obtain ⟨q, hq, hqlen⟩ := hfull (i + 1) (by omega)
          refine ⟨q, ?_, hqlen⟩
          rwa [show pageLimit * (j + (i + 1)) = pageLimit * (j + 1 + i) by ring] at hq)
        (by rwa [show pageLimit * (j + (k + 1)) = pageLimit * (j + 1 + k) by ring] at herr)
        (by omega)
      constructor
      · simp only [fetchPages, hp, if_neg hnotshort, hnext, hih.1]
      · simp only [requestCount, hp, if_neg hnotshort, hnext, hih.2]
        omega

/-- C9: if every page before index k is full and the request at offset 100k
fails, the whole fetch surfaces that error with no partial result, exactly
k+1 requests are made (no retry), and the loader converts the error into
the user-visible message while leaving the displayed events unchanged. -/
theorem c9_error_propagation (backend : Nat → Except String (List Event)) (msg : String)
    (k fuel : Nat) (st : AnalyticsState)
    (hfull : ∀ i, i < k → ∃ p, backend (pageLimit * i) = Except.ok p ∧ p.length = pageLimit)
    (herr : backend (pageLimit * k) = Except.error msg)
    (hfuel : k < fuel) :
    getAllForAnalytics backend fuel = Except.error msg ∧
    requestCount backend fuel 0 = k + 1 ∧
    (loadEvents (getAllForAnalytics backend fuel) st).events = st.events ∧
    (loadEvents (getAllForAnalytics backend fuel) st).error
      = some "Could not load data from server" := by
  have h := fetchPages_error_spec backend msg k 0 fuel
    (fun i hi => by simpa using hfull i hi)
    (by simpa using herr) hfuel
  have h1 : getAllForAnalytics backend fuel = Except.error msg := by
    rw [getAllForAnalytics]
    have h0 := h.1
    rwa [show pageLimit * 0 = 0 by ring] at h0
  refine ⟨h1, ?_, ?_, ?_⟩
  · have h2 := h.2
    rwa [show pageLimit * 0 = 0 by ring] at h2
  · rw [h1]
    rfl
  · rw [h1]
    rfl

/-- Backend whose first page is full and whose second request fails. -/
def demoFailBackend : Nat → Except String (List Event) := fun skip =>
  if skip = 0 then Except.ok (List.replicate 100 demoEvent1)
  else Except.error "network down"

/-- Witness for C9: the failing second page aborts the fetch with the error
after 2 requests, and the loader keeps the previous events while setting
the user-visible message. -/
theorem c9_error_propagation_witness :
    getAllForAnalytics demoFailBackend 10 = Except.error "network down" ∧
    requestCount demoFailBackend 10 0 = 2 ∧
    (loadEvents (getAllForAnalytics demoFailBackend 10)
      { events := [demoEvent2], error := none, loading := true }).events = [demoEvent2] ∧
    (loadEvents (getAllForAnalytics demoFailBackend 10)
      { events := [demoEvent2], error := none, loading := true }).error
      = some "Could not load data from server" := by
  have h := c9_error_propagation demoFailBackend "network down" 1 10
    { events := [demoEvent2], error := none, loading := true }
    (by
      intro i hi
      have hi0 : i = 0 := by omega
      subst hi0
      exact ⟨List.replicate 100 demoEvent1, rfl, by simp [pageLimit]⟩)
    rfl (by omega)
  simpa using h

end EventReport
